import Mathlib

/-!
# Verification of the fermionic-classical-shadows random cover construction

This file gives a shallow embedding of `FGU_random_cover.py`:

* `perm_parity` — parity of the number of inversions of a list
  (the Python function iterates over `itertools.combinations(range(len), 2)`
  and counts pairs `i < j` with `l[i] > l[j]`, returning the count mod 2);
* `permute_majorana` — maps indices through a permutation, returning the
  sorted image and the sign `(-1) ** perm_parity(image)`;
* `invert_permutation` — `np.arange(N)[np.argsort(p)]`, which equals
  `np.argsort(p)` itself: the indices `0, …, N-1` sorted by their value
  under `p` (for tie-free inputs any sorting algorithm yields the same
  list; we use insertion sort);
* `tally_majorana_matches` — for each body order `j = 1, …, k_max` and each
  `j`-combination `P` of `{0, …, n-1}` (`n = len(Q) / 2`), builds the
  diagonal index list `[2p, 2p+1 : p ∈ P]`, pushes it through the inverse
  of `Q`, and when the sorted image is a registry key increments that key's
  count and appends the record;
* `construct_random_measurements_FGU` — the randomized cover constructor;
  the stream of random permutations drawn by `np.random` is modelled as an
  explicit list of draws, and exhausting it (the Python loop would keep
  drawing) or a raised exception is modelled as `none`.

Registries (Python dicts keyed by index tuples) are association lists; the
key set of a dict is the list of keys in insertion order.
-/

/-- The pairs `(i, j)` with `i < j < n`, in the enumeration order of
`itertools.combinations(range(n), 2)`. -/
def inversionPairs (n : Nat) : List (Nat × Nat) :=
  (List.range n).flatMap (fun i => (List.range' (i + 1) (n - (i + 1))).map (fun j => (i, j)))

/-- `perm_parity` from the source: the number of pairs `i < j` with
`l[i] > l[j]`, taken modulo 2. -/
def perm_parity (l : List Nat) : Nat :=
  ((inversionPairs l.length).countP (fun ij => decide (l.getD ij.2 0 < l.getD ij.1 0))) % 2

/-- `permute_majorana` from the source: the image of `indices` under `Q`,
sorted, together with `(-1) ** perm_parity` of the unsorted image. -/
def permute_majorana (indices Q : List Nat) : List Nat × Int :=
  let l := indices.map (fun i => Q.getD i 0)
  (List.insertionSort (· ≤ ·) l, (-1 : Int) ^ perm_parity l)

/-- `invert_permutation` from the source: `np.arange(N)[np.argsort(p)]`,
i.e. `argsort(p)`: the index list `range N` sorted by value under `p`. -/
def invert_permutation (p : List Nat) : List Nat :=
  List.insertionSort (fun i j => p.getD i 0 ≤ p.getD j 0) (List.range p.length)

/-- A Majorana operator key: a tuple of Majorana mode indices. -/
abbrev MajKey := List Nat

/-- The `ops_dict` registry: an association list from keys to coverage
counts, standing for the Python dict (keys in insertion order). -/
abbrev Registry := List (MajKey × Nat)

/-- A measurement record `(measured_op, diagonal_op, sign)`. -/
abbrev MRecord := MajKey × MajKey × Int

/-- The cover: permutation ↦ list of measurement records. -/
abbrev Cover := List (List Nat × List MRecord)

/-- The key set of a registry, in order. -/
def keysOf (reg : Registry) : List MajKey := reg.map Prod.fst

/-- Dictionary lookup (first matching key). -/
def lookupReg : Registry → MajKey → Option Nat
  | [], _ => none
  | kv :: rest, key => if kv.1 = key then some kv.2 else lookupReg rest key

/-- `ops_dict[key] += 1`: increment the (first) entry with the given key. -/
def incr : Registry → MajKey → Registry
  | [], _ => []
  | kv :: rest, key => if kv.1 = key then (kv.1, kv.2 + 1) :: rest else kv :: incr rest key

/-- `itertools.combinations(xs, j)`: all `j`-element sublists of `xs`, in
lexicographic enumeration order. -/
def combinations : Nat → List Nat → List (List Nat)
  | 0, _ => [[]]
  | _ + 1, [] => []
  | j + 1, x :: xs => (combinations j xs).map (fun c => x :: c) ++ combinations (j + 1) xs

/-- `[2*p + i for p in P for i in range(2)]`. -/
def diagOf (P : List Nat) : List Nat := P.flatMap (fun p => [2 * p, 2 * p + 1])

/-- The combinations visited by the tally loop: body orders `j = 1, …, k_max`,
and for each the `j`-combinations of `{0, …, n-1}`, in enumeration order. -/
def allCombos (n k_max : Nat) : List (List Nat) :=
  (List.range' 1 k_max).flatMap (fun j => combinations j (List.range n))

/-- One iteration of the tally loop body, threading the registry and the
accumulated record list. -/
def tallyOne (Q : List Nat) (st : Registry × List MRecord) (P : List Nat) :
    Registry × List MRecord :=
  let diag := diagOf P
  let pr := permute_majorana diag (invert_permutation Q)
  if pr.1 ∈ keysOf st.1 then (incr st.1 pr.1, st.2 ++ [(pr.1, diag, pr.2)]) else st

/-- `tally_majorana_matches` with `k_max` given: returns the mutated
registry together with the list of measurement records. -/
def tally_majorana_matches (reg : Registry) (Q : List Nat) (k_max : Nat) :
    Registry × List MRecord :=
  (allCombos (Q.length / 2) k_max).foldl (tallyOne Q) (reg, [])

/-- `max([len(term) for term in ops_dict])`: `none` models the `ValueError`
Python raises on an empty sequence. -/
def autoKmax (reg : Registry) : Option Nat := (reg.map (fun kv => kv.1.length)).max?

/-- `tally_majorana_matches` with optional `k_max` (`None` triggers the
automatic maximum-degree determination). -/
def tally_opt (reg : Registry) (Q : List Nat) (kopt : Option Nat) :
    Option (Registry × List MRecord) :=
  match kopt with
  | some k => some (tally_majorana_matches reg Q k)
  | none => (autoKmax reg).map (fun k => tally_majorana_matches reg Q k)

/-- The `while` loop of `construct_random_measurements_FGU`. Each loop
iteration consumes one element of `draws` (the modelled random stream);
running out of draws while the coverage condition still holds, or an
exception from the tally, yields `none`. -/
def build_cover_loop (r : Nat) (kopt : Option Nat) :
    List (List Nat) → Registry → Cover → Option (Registry × Cover)
  | [], reg, cover =>
      if reg.any (fun kv => decide (kv.2 < r)) then none else some (reg, cover)
  | Q :: rest, reg, cover =>
      if reg.any (fun kv => decide (kv.2 < r)) then
        if Q ∈ cover.map Prod.fst then
          build_cover_loop r kopt rest reg cover
        else
          match tally_opt reg Q kopt with
          | none => none
          | some st =>
              build_cover_loop r kopt rest st.1
                (if st.2.isEmpty then cover else cover ++ [(Q, st.2)])
      else some (reg, cover)

/-- `construct_random_measurements_FGU`, with the random draws passed in
explicitly. -/
def construct_random_measurements_FGU (reg : Registry) (kopt : Option Nat) (r : Nat)
    (draws : List (List Nat)) : Option (Registry × Cover) :=
  build_cover_loop r kopt draws reg []

/-- The record produced by one combination `P`, phrased against a fixed key
set: `some` exactly when the sorted image of the diagonal index list under
the inverse permutation is among the keys. -/
def recordOf (keys : List MajKey) (Q : List Nat) (P : List Nat) : Option MRecord :=
  let diag := diagOf P
  let pr := permute_majorana diag (invert_permutation Q)
  if pr.1 ∈ keys then some (pr.1, diag, pr.2) else none

/-- Closed form for the record list returned by the tally: the per-combination
outcomes in enumeration order, membership tested against a fixed key set. -/
def specRecords (keys : List MajKey) (Q : List Nat) (k_max : Nat) : List MRecord :=
  (allCombos (Q.length / 2) k_max).filterMap (recordOf keys Q)

/-- Apply `incr` once for each key in `ms`, left to right. -/
def foldIncr (reg : Registry) (ms : List MajKey) : Registry := ms.foldl incr reg

/-- `p` is a permutation of `{0, …, len(p)-1}`. -/
abbrev IsPerm (p : List Nat) : Prop := p.Perm (List.range p.length)

/-- Composition of permutations-as-lists: apply `b` first, then `a`. -/
def compose (a b : List Nat) : List Nat := b.map (fun i => a.getD i 0)

/-- Swap the elements at positions `a` and `b`. -/
def swapPos (l : List Nat) (a b : Nat) : List Nat :=
  (l.set a (l.getD b 0)).set b (l.getD a 0)

/-- The transposition of `a` and `b` as a function on indices. -/
def tau (a b k : Nat) : Nat := if k = a then b else if k = b then a else k

/-- The action of the transposition `tau a b` on index pairs, fixing the
pair `(a, b)` itself. -/
def sigmaPair (a b : Nat) (ij : Nat × Nat) : Nat × Nat :=
  if ij = (a, b) then ij else (tau a b ij.1, tau a b ij.2)

/-- The finite set of index pairs `(i, j)` with `i < j < n`. -/
def pairsF (n : Nat) : Finset (Nat × Nat) :=
  (Finset.range n ×ˢ Finset.range n).filter (fun ij => ij.1 < ij.2)

/-- The inversion count of a list as a `Finset` cardinality: the number of
index pairs `(i, j)` with `i < j` and `l[i] > l[j]`. -/
def specCount (l : List Nat) : Nat :=
  ((pairsF l.length).filter (fun ij => l.getD ij.2 0 < l.getD ij.1 0)).card

/-- Recover `P` from `diagOf P`: keep the even entries and halve them. -/
def unDiag (l : List Nat) : List Nat := (l.filter (fun x => x % 2 == 0)).map (· / 2)

/-! ## Basic facts about lists indexed by `getD` -/

theorem getD_map_nat (f : Nat → Nat) (l : List Nat) (i : Nat) (h : i < l.length) :
    (l.map f).getD i 0 = f (l.getD i 0) := by
  rw [List.getD_eq_getElem _ _ (show i < (l.map f).length by simpa using h),
    List.getD_eq_getElem _ _ h, List.getElem_map]

theorem getD_range_lt {n i : Nat} (h : i < n) : (List.range n).getD i 0 = i := by
  rw [List.getD_eq_getElem _ _ (show i < (List.range n).length by simpa using h),
    List.getElem_range]

theorem map_getD_range (p : List Nat) :
    (List.range p.length).map (fun i => p.getD i 0) = p := by
  apply List.ext_getElem
  · simp
  · intro i h1 h2
    simp only [List.getElem_map, List.getElem_range]
    rw [List.getD_eq_getElem _ _ h2]

theorem getD_mem_of_lt (l : List Nat) {i : Nat} (h : i < l.length) : l.getD i 0 ∈ l := by
  rw [List.getD_eq_getElem _ _ h]
  exact l.getElem_mem h

theorem nodup_getD_inj {l : List Nat} (hnd : l.Nodup) {i j : Nat}
    (hi : i < l.length) (hj : j < l.length) (h : l.getD i 0 = l.getD j 0) : i = j := by
  rw [List.getD_eq_getElem _ _ hi, List.getD_eq_getElem _ _ hj] at h
  rcases Nat.lt_trichotomy i j with hij | hij | hij
  · exact absurd h ((List.pairwise_iff_getElem.mp hnd) i j hi hj hij)
  · exact hij
  · exact absurd h.symm ((List.pairwise_iff_getElem.mp hnd) j i hj hi hij)

/-! ## Permutation facts: `invert_permutation` and `compose` -/

theorem IsPerm.nodup {p : List Nat} (hp : IsPerm p) : p.Nodup :=
  hp.nodup_iff.mpr (List.nodup_range _)

theorem IsPerm.mem_lt {p : List Nat} (hp : IsPerm p) {x : Nat} (hx : x ∈ p) : x < p.length := by
  have := hp.mem_iff.mp hx
  simpa using this

theorem IsPerm.getD_lt {p : List Nat} (hp : IsPerm p) {i : Nat} (hi : i < p.length) :
    p.getD i 0 < p.length :=
  hp.mem_lt (getD_mem_of_lt p hi)

theorem invert_perm_range (p : List Nat) :
    List.Perm (invert_permutation p) (List.range p.length) :=
  List.perm_insertionSort _ _

theorem length_invert (p : List Nat) : (invert_permutation p).length = p.length := by
  have := (invert_perm_range p).length_eq
  simpa using this

theorem isPerm_invert (p : List Nat) : IsPerm (invert_permutation p) := by
  have h := invert_perm_range p
  rwa [show p.length = (invert_permutation p).length from (length_invert p).symm] at h

theorem sorted_invert (p : List Nat) :
    (invert_permutation p).Sorted (fun i j => p.getD i 0 ≤ p.getD j 0) := by
  haveI : IsTotal Nat (fun i j => p.getD i 0 ≤ p.getD j 0) := ⟨fun a b => Nat.le_total _ _⟩
  haveI : IsTrans Nat (fun i j => p.getD i 0 ≤ p.getD j 0) :=
    ⟨fun a b c hab hbc => le_trans hab hbc⟩
  exact List.sorted_insertionSort _ _

theorem compose_invert_right {p : List Nat} (hp : IsPerm p) :
    compose p (invert_permutation p) = List.range p.length := by
  have hsorted : List.Sorted (· ≤ ·) ((invert_permutation p).map (fun i => p.getD i 0)) :=
    List.Pairwise.map _ (fun a b h => h) (sorted_invert p)
  have h1 : List.Perm ((invert_permutation p).map (fun i => p.getD i 0)) p := by
    have := (invert_perm_range p).map (fun i => p.getD i 0)
    rwa [map_getD_range] at this
  have hperm := h1.trans hp
  have := List.eq_of_perm_of_sorted hperm hsorted (List.sorted_le_range _)
  simpa [compose] using this

theorem getD_compose_invert_right {p : List Nat} (hp : IsPerm p) {j : Nat}
    (hj : j < p.length) : p.getD ((invert_permutation p).getD j 0) 0 = j := by
  have h := compose_invert_right hp
  have hlen : j < (invert_permutation p).length := by rw [length_invert]; exact hj
  have h2 := congrArg (fun l => l.getD j 0) h
  simp only [compose] at h2
  rw [getD_map_nat _ _ _ hlen, getD_range_lt hj] at h2
  exact h2

theorem getD_invert_lt (p : List Nat) {j : Nat} (hj : j < p.length) :
    (invert_permutation p).getD j 0 < p.length := by
  have h := (isPerm_invert p).getD_lt (show j < (invert_permutation p).length by
    rw [length_invert]; exact hj)
  rwa [length_invert] at h

theorem getD_invert_getD {p : List Nat} (hp : IsPerm p) {i : Nat} (hi : i < p.length) :
    (invert_permutation p).getD (p.getD i 0) 0 = i := by
  have hpi : p.getD i 0 < p.length := hp.getD_lt hi
  have h1 : p.getD ((invert_permutation p).getD (p.getD i 0) 0) 0 = p.getD i 0 :=
    getD_compose_invert_right hp hpi
  exact nodup_getD_inj hp.nodup (getD_invert_lt p hpi) hi h1

theorem compose_invert_left {p : List Nat} (hp : IsPerm p) :
    compose (invert_permutation p) p = List.range p.length := by
  apply List.ext_getElem
  · simp [compose]
  · intro i h1 h2
    have hi : i < p.length := by simpa using h2
    simp only [compose, List.getElem_map, List.getElem_range]
    rw [← List.getD_eq_getElem _ 0 (show i < p.length from hi)]
    exact getD_invert_getD hp hi

/-! ## Registry lemmas -/

theorem keysOf_incr (reg : Registry) (key : MajKey) : keysOf (incr reg key) = keysOf reg := by
  induction reg with
  | nil => rfl
  | cons kv rest ih =>
    by_cases h : kv.1 = key
    · simp [incr, keysOf, h]
    · simp only [incr, if_neg h]
      simp only [keysOf, List.map_cons] at ih ⊢
      rw [ih]

theorem keysOf_foldIncr (reg : Registry) (ms : List MajKey) :
    keysOf (foldIncr reg ms) = keysOf reg := by
  induction ms generalizing reg with
  | nil => rfl
  | cons m rest ih =>
    show keysOf (foldIncr (incr reg m) rest) = keysOf reg
    rw [ih, keysOf_incr]

theorem lookupReg_incr (reg : Registry) (key k : MajKey) :
    lookupReg (incr reg key) k =
      if k = key then (lookupReg reg k).map (· + 1) else lookupReg reg k := by
  induction reg with
  | nil => simp [incr, lookupReg]
  | cons kv rest ih =>
    by_cases h1 : kv.1 = key
    · by_cases h2 : k = key
      · simp [incr, lookupReg, h1, h2, h1.trans h2.symm]
      · have h4 : key ≠ k := fun hc => h2 hc.symm
        simp [incr, lookupReg, h1, h2, h4]
    · by_cases h2 : kv.1 = k
      · have h3 : k ≠ key := fun hc => h1 (h2.trans hc)
        simp [incr, lookupReg, h1, h2, h3]
      · simp [incr, lookupReg, h1, h2, ih]

theorem lookupReg_foldIncr (reg : Registry) (ms : List MajKey) (k : MajKey) :
    lookupReg (foldIncr reg ms) k = (lookupReg reg k).map (· + ms.count k) := by
  induction ms generalizing reg with
  | nil =>
    show lookupReg reg k = (lookupReg reg k).map (· + 0)
    cases lookupReg reg k <;> simp
  | cons m rest ih =>
    show lookupReg (foldIncr (incr reg m) rest) k = _
    rw [ih, lookupReg_incr]
    by_cases h : k = m
    · subst h
      cases lookupReg reg k <;> simp [List.count_cons, Nat.add_comm, Nat.add_assoc,
        Nat.add_left_comm]
    · have : (m == k) = false := by simpa using fun hc => h hc.symm
      cases lookupReg reg k <;> simp [List.count_cons, this, if_neg h]

/-! ## The tally fold in closed form -/

theorem foldl_tallyOne_eq (Q : List Nat) (combos : List (List Nat)) :
    ∀ (reg : Registry) (recs : List MRecord),
      combos.foldl (tallyOne Q) (reg, recs) =
        (foldIncr reg ((combos.filterMap (recordOf (keysOf reg) Q)).map (fun t => t.1)),
         recs ++ combos.filterMap (recordOf (keysOf reg) Q)) := by
  induction combos with
  | nil => intro reg recs; simp [foldIncr]
  | cons P rest ih =>
    intro reg recs
    show rest.foldl (tallyOne Q) (tallyOne Q (reg, recs) P) = _
    by_cases h : (permute_majorana (diagOf P) (invert_permutation Q)).1 ∈ keysOf reg
    · have ht : tallyOne Q (reg, recs) P =
          (incr reg (permute_majorana (diagOf P) (invert_permutation Q)).1,
           recs ++ [((permute_majorana (diagOf P) (invert_permutation Q)).1, diagOf P,
             (permute_majorana (diagOf P) (invert_permutation Q)).2)]) := by
        simp [tallyOne, h]
      have hrec : recordOf (keysOf reg) Q P =
          some ((permute_majorana (diagOf P) (invert_permutation Q)).1, diagOf P,
            (permute_majorana (diagOf P) (invert_permutation Q)).2) := by
        simp [recordOf, h]
      rw [ht, ih, keysOf_incr]
      simp [List.filterMap_cons, hrec, foldIncr]
    · have ht : tallyOne Q (reg, recs) P = (reg, recs) := by
        simp [tallyOne, h]
      have hrec : recordOf (keysOf reg) Q P = none := by
        simp [recordOf, h]
      rw [ht, ih]
      simp [List.filterMap_cons, hrec]

theorem tally_spec (reg : Registry) (Q : List Nat) (k : Nat) :
    tally_majorana_matches reg Q k =
      (foldIncr reg ((specRecords (keysOf reg) Q k).map (fun t => t.1)),
       specRecords (keysOf reg) Q k) := by
  have h := foldl_tallyOne_eq Q (allCombos (Q.length / 2) k) reg []
  simpa [tally_majorana_matches, specRecords] using h

theorem keysOf_tally (reg : Registry) (Q : List Nat) (k : Nat) :
    keysOf (tally_majorana_matches reg Q k).1 = keysOf reg := by
  rw [tally_spec]
  exact keysOf_foldIncr _ _

/-! ## The cover-construction loop -/

theorem all_ge_of_any_false {reg : Registry} {r : Nat}
    (h : reg.any (fun kv => decide (kv.2 < r)) = false) : ∀ kv ∈ reg, r ≤ kv.2 := by
  intro kv hkv
  have := List.any_eq_false.mp h kv hkv
  simpa using this

theorem keysOf_tally_opt {reg : Registry} {Q : List Nat} {kopt : Option Nat}
    {st : Registry × List MRecord} (h : tally_opt reg Q kopt = some st) :
    keysOf st.1 = keysOf reg := by
  cases kopt with
  | some k =>
    simp only [tally_opt, Option.some.injEq] at h
    rw [← h]
    exact keysOf_tally reg Q k
  | none =>
    simp only [tally_opt, Option.map_eq_some'] at h
    obtain ⟨k, _, hk⟩ := h
    rw [← hk]
    exact keysOf_tally reg Q k

theorem build_cover_loop_final (r : Nat) (kopt : Option Nat) :
    ∀ (draws : List (List Nat)) (reg : Registry) (cover : Cover)
      (regF : Registry) (covF : Cover),
      build_cover_loop r kopt draws reg cover = some (regF, covF) →
      ∀ kv ∈ regF, r ≤ kv.2 := by
  intro draws
  induction draws with
  | nil =>
    intro reg cover regF covF h
    cases hany : reg.any (fun kv => decide (kv.2 < r)) with
    | true => simp [build_cover_loop, hany] at h
    | false =>
      simp only [build_cover_loop, hany, Bool.false_eq_true, if_false,
        Option.some.injEq, Prod.mk.injEq] at h
      obtain ⟨h1, _⟩ := h
      subst h1
      exact all_ge_of_any_false hany
  | cons Q rest ih =>
    intro reg cover regF covF h
    cases hany : reg.any (fun kv => decide (kv.2 < r)) with
    | false =>
      simp only [build_cover_loop, hany, Bool.false_eq_true, if_false,
        Option.some.injEq, Prod.mk.injEq] at h
      obtain ⟨h1, _⟩ := h
      subst h1
      exact all_ge_of_any_false hany
    | true =>
      simp only [build_cover_loop, hany, if_true] at h
      by_cases hdup : Q ∈ cover.map Prod.fst
      · rw [if_pos hdup] at h
        exact ih reg cover regF covF h
      · rw [if_neg hdup] at h
        cases htally : tally_opt reg Q kopt with
        | none => rw [htally] at h; simp at h
        | some st =>
          rw [htally] at h
          exact ih _ _ _ _ h

theorem build_cover_loop_keys (r : Nat) (kopt : Option Nat) :
    ∀ (draws : List (List Nat)) (reg : Registry) (cover : Cover)
      (regF : Registry) (covF : Cover),
      build_cover_loop r kopt draws reg cover = some (regF, covF) →
      keysOf regF = keysOf reg := by
  intro draws
  induction draws with
  | nil =>
    intro reg cover regF covF h
    cases hany : reg.any (fun kv => decide (kv.2 < r)) with
    | true => simp [build_cover_loop, hany] at h
    | false =>
      simp only [build_cover_loop, hany, Bool.false_eq_true, if_false,
        Option.some.injEq, Prod.mk.injEq] at h
      rw [← h.1]
  | cons Q rest ih =>
    intro reg cover regF covF h
    cases hany : reg.any (fun kv => decide (kv.2 < r)) with
    | false =>
      simp only [build_cover_loop, hany, Bool.false_eq_true, if_false,
        Option.some.injEq, Prod.mk.injEq] at h
      rw [← h.1]
    | true =>
      simp only [build_cover_loop, hany, if_true] at h
      by_cases hdup : Q ∈ cover.map Prod.fst
      · rw [if_pos hdup] at h
        exact ih reg cover regF covF h
      · rw [if_neg hdup] at h
        cases htally : tally_opt reg Q kopt with
        | none => rw [htally] at h; simp at h
        | some st =>
          rw [htally] at h
          rw [ih _ _ _ _ h]
          exact keysOf_tally_opt htally

theorem build_cover_loop_cover_le (r : Nat) (kopt : Option Nat) :
    ∀ (draws : List (List Nat)) (reg : Registry) (cover : Cover)
      (regF : Registry) (covF : Cover),
      build_cover_loop r kopt draws reg cover = some (regF, covF) →
      cover.length ≤ covF.length := by
  intro draws
  induction draws with
  | nil =>
    intro reg cover regF covF h
    cases hany : reg.any (fun kv => decide (kv.2 < r)) with
    | true => simp [build_cover_loop, hany] at h
    | false =>
      simp only [build_cover_loop, hany, Bool.false_eq_true, if_false,
        Option.some.injEq, Prod.mk.injEq] at h
      rw [h.2]
  | cons Q rest ih =>
    intro reg cover regF covF h
    cases hany : reg.any (fun kv => decide (kv.2 < r)) with
    | false =>
      simp only [build_cover_loop, hany, Bool.false_eq_true, if_false,
        Option.some.injEq, Prod.mk.injEq] at h
      rw [h.2]
    | true =>
      simp only [build_cover_loop, hany, if_true] at h
      by_cases hdup : Q ∈ cover.map Prod.fst
      · rw [if_pos hdup] at h
        exact ih reg cover regF covF h
      · rw [if_neg hdup] at h
        cases htally : tally_opt reg Q kopt with
        | none => rw [htally] at h; simp at h
        | some st =>
          rw [htally] at h
          refine le_trans ?_ (ih _ _ _ _ h)
          by_cases hemp : st.2.isEmpty
          · rw [if_pos hemp]
          · rw [if_neg hemp]
            simp

theorem any_lt_mono {reg : Registry} {r r' : Nat} (hr : r ≤ r')
    (h : reg.any (fun kv => decide (kv.2 < r)) = true) :
    reg.any (fun kv => decide (kv.2 < r')) = true := by
  rw [List.any_eq_true] at h ⊢
  obtain ⟨kv, hkv, hlt⟩ := h
  exact ⟨kv, hkv, by simp at hlt ⊢; omega⟩

theorem build_cover_loop_mono (kopt : Option Nat) {r r' : Nat} (hr : r ≤ r') :
    ∀ (draws : List (List Nat)) (reg : Registry) (cover : Cover)
      (regF : Registry) (covF : Cover),
      build_cover_loop r' kopt draws reg cover = some (regF, covF) →
      ∃ regG covG, build_cover_loop r kopt draws reg cover = some (regG, covG) ∧
        covG.length ≤ covF.length := by
  intro draws
  induction draws with
  | nil =>
    intro reg cover regF covF h
    cases hany' : reg.any (fun kv => decide (kv.2 < r')) with
    | true => simp [build_cover_loop, hany'] at h
    | false =>
      simp only [build_cover_loop, hany', Bool.false_eq_true, if_false,
        Option.some.injEq, Prod.mk.injEq] at h
      have hany : reg.any (fun kv => decide (kv.2 < r)) = false := by
        cases hc : reg.any (fun kv => decide (kv.2 < r)) with
        | false => rfl
        | true => rw [any_lt_mono hr hc] at hany'; exact absurd hany' (by simp)
      refine ⟨reg, cover, by simp [build_cover_loop, hany], ?_⟩
      rw [h.2]
  | cons Q rest ih =>
    intro reg cover regF covF h
    have h0 := h
    cases hany' : reg.any (fun kv => decide (kv.2 < r')) with
    | false =>
      simp only [build_cover_loop, hany', Bool.false_eq_true, if_false,
        Option.some.injEq, Prod.mk.injEq] at h
      have hany : reg.any (fun kv => decide (kv.2 < r)) = false := by
        cases hc : reg.any (fun kv => decide (kv.2 < r)) with
        | false => rfl
        | true => rw [any_lt_mono hr hc] at hany'; exact absurd hany' (by simp)
      refine ⟨reg, cover, by simp [build_cover_loop, hany], ?_⟩
      rw [h.2]
    | true =>
      cases hany : reg.any (fun kv => decide (kv.2 < r)) with
      | false =>
        refine ⟨reg, cover, by simp [build_cover_loop, hany], ?_⟩
        exact build_cover_loop_cover_le r' kopt _ _ _ _ _ h0
      | true =>
        simp only [build_cover_loop, hany', if_true] at h
        by_cases hdup : Q ∈ cover.map Prod.fst
        · rw [if_pos hdup] at h
          obtain ⟨regG, covG, hG, hle⟩ := ih reg cover regF covF h
          exact ⟨regG, covG, by simp [build_cover_loop, hany, hdup, hG], hle⟩
        · rw [if_neg hdup] at h
          cases htally : tally_opt reg Q kopt with
          | none => rw [htally] at h; simp at h
          | some st =>
            rw [htally] at h
            obtain ⟨regG, covG, hG, hle⟩ := ih _ _ regF covF h
            refine ⟨regG, covG, ?_, hle⟩
            simp only [build_cover_loop, hany, if_true, if_neg hdup, htally]
            exact hG

theorem build_cover_loop_skip_dup (r : Nat) (kopt : Option Nat) (Q : List Nat)
    (rest : List (List Nat)) (reg : Registry) (cover : Cover)
    (hdup : Q ∈ cover.map Prod.fst) :
    build_cover_loop r kopt (Q :: rest) reg cover =
      build_cover_loop r kopt rest reg cover := by
  cases hany : reg.any (fun kv => decide (kv.2 < r)) with
  | true => simp [build_cover_loop, hany, hdup]
  | false =>
    cases rest with
    | nil => simp [build_cover_loop, hany]
    | cons Q2 rest2 => simp [build_cover_loop, hany]

theorem build_cover_loop_nodup (r : Nat) (kopt : Option Nat) :
    ∀ (draws : List (List Nat)) (reg : Registry) (cover : Cover)
      (regF : Registry) (covF : Cover),
      (cover.map Prod.fst).Nodup →
      build_cover_loop r kopt draws reg cover = some (regF, covF) →
      (covF.map Prod.fst).Nodup := by
  intro draws
  induction draws with
  | nil =>
    intro reg cover regF covF hnd h
    cases hany : reg.any (fun kv => decide (kv.2 < r)) with
    | true => simp [build_cover_loop, hany] at h
    | false =>
      simp only [build_cover_loop, hany, Bool.false_eq_true, if_false,
        Option.some.injEq, Prod.mk.injEq] at h
      rw [← h.2]
      exact hnd
  | cons Q rest ih =>
    intro reg cover regF covF hnd h
    cases hany : reg.any (fun kv => decide (kv.2 < r)) with
    | false =>
      simp only [build_cover_loop, hany, Bool.false_eq_true, if_false,
        Option.some.injEq, Prod.mk.injEq] at h
      rw [← h.2]
      exact hnd
    | true =>
      simp only [build_cover_loop, hany, if_true] at h
      by_cases hdup : Q ∈ cover.map Prod.fst
      · rw [if_pos hdup] at h
        exact ih reg cover regF covF hnd h
      · rw [if_neg hdup] at h
        cases htally : tally_opt reg Q kopt with
        | none => rw [htally] at h; simp at h
        | some st =>
          rw [htally] at h
          have h2 : build_cover_loop r kopt rest st.1
              (if st.2.isEmpty then cover else cover ++ [(Q, st.2)]) = some (regF, covF) := h
          by_cases hemp : st.2.isEmpty
          · rw [if_pos hemp] at h2
            exact ih _ _ _ _ hnd h2
          · rw [if_neg hemp] at h2
            refine ih _ _ _ _ ?_ h2
            rw [List.map_append]
            rw [List.nodup_append]
            refine ⟨hnd, by simp, ?_⟩
            intro x hx hx2
            simp only [List.map_cons, List.map_nil, List.mem_cons,
              List.not_mem_nil, or_false] at hx2
            exact hdup (hx2 ▸ hx)

/-! ## Inversion pairs and the inversion count -/

theorem mem_inversionPairs {n : Nat} {x : Nat × Nat} :
    x ∈ inversionPairs n ↔ x.1 < x.2 ∧ x.2 < n := by
  obtain ⟨i, j⟩ := x
  simp only [inversionPairs, List.mem_flatMap, List.mem_map, List.mem_range, List.mem_range',
    Prod.mk.injEq]
  constructor
  · rintro ⟨a, ha, b, ⟨k, hk, hbk⟩, hai, hbj⟩
    subst hai
    subst hbj
    omega
  · rintro ⟨hij, hjn⟩
    exact ⟨i, by omega, j, ⟨j - (i + 1), by omega, by omega⟩, rfl, rfl⟩

theorem nodup_inversionPairs (n : Nat) : (inversionPairs n).Nodup := by
  rw [inversionPairs, List.nodup_flatMap]
  constructor
  · intro i _
    refine List.Nodup.map ?_ (List.nodup_range' _ _)
    intro u v huv
    simpa using huv
  · refine (List.nodup_range n).imp ?_
    intro a b hab x hxa hxb
    simp only [List.mem_map] at hxa hxb
    obtain ⟨j1, _, h1⟩ := hxa
    obtain ⟨j2, _, h2⟩ := hxb
    apply hab
    exact congrArg Prod.fst (h1.trans h2.symm)

theorem perm_parity_eq_specCount (l : List Nat) : perm_parity l = specCount l % 2 := by
  rw [perm_parity, specCount]
  congr 1
  rw [List.countP_eq_length_filter]
  rw [← List.toFinset_card_of_nodup ((nodup_inversionPairs l.length).filter _)]
  congr 1
  apply Finset.ext
  intro x
  simp only [List.mem_toFinset, List.mem_filter, mem_inversionPairs, Finset.mem_filter,
    pairsF, Finset.mem_product, Finset.mem_range, decide_eq_true_eq]
  constructor
  · rintro ⟨⟨h1, h2⟩, h3⟩
    exact ⟨⟨⟨by omega, h2⟩, h1⟩, h3⟩
  · rintro ⟨⟨⟨_, h2⟩, h1⟩, h3⟩
    exact ⟨⟨h1, h2⟩, h3⟩

theorem perm_parity_lt_two (l : List Nat) : perm_parity l < 2 :=
  Nat.mod_lt _ (by omega)

theorem perm_parity_range (n : Nat) : perm_parity (List.range n) = 0 := by
  rw [perm_parity]
  have h : ((inversionPairs (List.range n).length).countP
      (fun ij => decide ((List.range n).getD ij.2 0 < (List.range n).getD ij.1 0))) = 0 := by
    rw [List.countP_eq_zero]
    intro x hx
    rw [List.length_range] at hx
    rw [mem_inversionPairs] at hx
    obtain ⟨h1, h2⟩ := hx
    rw [getD_range_lt h2, getD_range_lt (by omega : x.1 < n)]
    simp
    omega
  rw [h]

theorem perm_parity_of_sorted {l : List Nat} (hs : l.Sorted (· ≤ ·)) : perm_parity l = 0 := by
  rw [perm_parity]
  have h : ((inversionPairs l.length).countP
      (fun ij => decide (l.getD ij.2 0 < l.getD ij.1 0))) = 0 := by
    rw [List.countP_eq_zero]
    intro x hx
    rw [mem_inversionPairs] at hx
    obtain ⟨h1, h2⟩ := hx
    have hle : l.getD x.1 0 ≤ l.getD x.2 0 := by
      rw [List.getD_eq_getElem _ _ (by omega : x.1 < l.length),
        List.getD_eq_getElem _ _ h2]
      exact List.pairwise_iff_getElem.mp hs x.1 x.2 (by omega) h2 h1
    simp only [decide_eq_true_eq]
    omega
  rw [h]

/-! ## Swapping two positions flips the inversion parity -/

theorem tau_tau (a b k : Nat) : tau a b (tau a b k) = k := by
  unfold tau
  split_ifs <;> omega

theorem tau_lt {a b k n : Nat} (ha : a < n) (hb : b < n) (hk : k < n) : tau a b k < n := by
  unfold tau
  split_ifs <;> omega

theorem length_swapPos (l : List Nat) (a b : Nat) : (swapPos l a b).length = l.length := by
  simp [swapPos]

theorem getD_swapPos (l : List Nat) {a b k : Nat} (ha : a < l.length) (hb : b < l.length)
    (hk : k < l.length) : (swapPos l a b).getD k 0 = l.getD (tau a b k) 0 := by
  have hk2 : k < (swapPos l a b).length := by rw [length_swapPos]; exact hk
  rw [List.getD_eq_getElem _ _ hk2]
  simp only [swapPos, List.getElem_set]
  rw [← List.getD_eq_getElem l 0 hk]
  unfold tau
  split_ifs <;> first
    | rfl
    | (congr 1; omega)
    | (exfalso; omega)

theorem nodup_swapPos {l : List Nat} (hnd : l.Nodup) {a b : Nat} (ha : a < l.length)
    (hb : b < l.length) : (swapPos l a b).Nodup := by
  have hlen := length_swapPos l a b
  refine List.pairwise_iff_getElem.mpr ?_
  intro i j hi hj hij
  rw [hlen] at hi hj
  intro heq
  have hgi : (swapPos l a b).getD i 0 = (swapPos l a b).getD j 0 := by
    rw [List.getD_eq_getElem _ _ (by rw [hlen]; exact hi),
      List.getD_eq_getElem _ _ (by rw [hlen]; exact hj)]
    exact heq
  rw [getD_swapPos l ha hb hi, getD_swapPos l ha hb hj] at hgi
  have := nodup_getD_inj hnd (tau_lt ha hb hi) (tau_lt ha hb hj) hgi
  have h2 : i = j := by
    have := congrArg (tau a b) this
    rwa [tau_tau, tau_tau] at this
  omega

theorem mem_pairsF {n : Nat} {ij : Nat × Nat} :
    ij ∈ pairsF n ↔ ij.1 < ij.2 ∧ ij.2 < n := by
  simp only [pairsF, Finset.mem_filter, Finset.mem_product, Finset.mem_range]
  constructor
  · rintro ⟨⟨h1, h2⟩, h3⟩
    exact ⟨h3, h2⟩
  · rintro ⟨h1, h2⟩
    exact ⟨⟨by omega, h2⟩, h1⟩

theorem sigmaPair_mem_adj {n a : Nat} (h : a + 1 < n) {ij : Nat × Nat}
    (hij : ij ∈ pairsF n) : sigmaPair a (a + 1) ij ∈ pairsF n := by
  obtain ⟨i, j⟩ := ij
  rw [mem_pairsF] at hij ⊢
  simp only [sigmaPair, tau, Prod.mk.injEq]
  split_ifs <;> simp_all <;> omega

theorem sigmaPair_invol_adj {a : Nat} {ij : Nat × Nat} (hij : ij.1 < ij.2) :
    sigmaPair a (a + 1) (sigmaPair a (a + 1) ij) = ij := by
  obtain ⟨i, j⟩ := ij
  simp only at hij
  simp only [sigmaPair, tau, Prod.mk.injEq]
  split_ifs <;> simp_all <;> omega

theorem specCount_cast_zmod (l : List Nat) :
    ((specCount l : ZMod 2)) =
      ∑ ij ∈ pairsF l.length,
        (if l.getD ij.2 0 < l.getD ij.1 0 then (1 : ZMod 2) else 0) := by
  rw [specCount, Finset.card_filter, Nat.cast_sum]
  apply Finset.sum_congr rfl
  intro x _
  split_ifs <;> simp

theorem specCount_swap_adj {l : List Nat} (hnd : l.Nodup) {a : Nat} (hb : a + 1 < l.length) :
    ((specCount (swapPos l a (a + 1)) : ZMod 2)) = (specCount l : ZMod 2) + 1 := by
  have ha : a < l.length := by omega
  have hlen : (swapPos l a (a + 1)).length = l.length := length_swapPos l a (a + 1)
  rw [specCount_cast_zmod, specCount_cast_zmod, hlen]
  have key : ∀ ij ∈ pairsF l.length,
      (if (swapPos l a (a + 1)).getD ij.2 0 < (swapPos l a (a + 1)).getD ij.1 0
        then (1 : ZMod 2) else 0)
      = (if l.getD (sigmaPair a (a + 1) ij).2 0 < l.getD (sigmaPair a (a + 1) ij).1 0
          then (1 : ZMod 2) else 0)
        + (if ij = (a, a + 1) then 1 else 0) := by
    intro ij hij
    obtain ⟨i, j⟩ := ij
    rw [mem_pairsF] at hij
    obtain ⟨hij2, hjn⟩ := hij
    simp only at hij2 hjn
    have hin : i < l.length := by omega
    rw [getD_swapPos l ha hb hjn, getD_swapPos l ha hb hin]
    by_cases hc : (i, j) = ((a : Nat), a + 1)
    · have hia : i = a := congrArg Prod.fst hc
      have hja : j = a + 1 := congrArg Prod.snd hc
      subst hia
      subst hja
      rw [sigmaPair, if_pos rfl, if_pos rfl]
      dsimp only
      have ht1 : tau i (i + 1) (i + 1) = i := by unfold tau; split_ifs <;> omega
      have ht2 : tau i (i + 1) i = i + 1 := by unfold tau; split_ifs <;> omega
      rw [ht1, ht2]
      have hne : l.getD i 0 ≠ l.getD (i + 1) 0 := by
        intro hc2
        have := nodup_getD_inj hnd hin hjn hc2
        omega
      rcases Nat.lt_or_ge (l.getD i 0) (l.getD (i + 1) 0) with hlt | hge
      · rw [if_pos hlt, if_neg (by omega)]
        decide
      · have hlt2 : l.getD (i + 1) 0 < l.getD i 0 := by omega
        rw [if_neg (by omega), if_pos hlt2]
        decide
    · rw [sigmaPair, if_neg hc, if_neg hc]
      simp only []
      rw [add_zero]
  rw [Finset.sum_congr rfl key, Finset.sum_add_distrib]
  congr 1
  · refine Finset.sum_nbij' (sigmaPair a (a + 1)) (sigmaPair a (a + 1)) ?_ ?_ ?_ ?_ ?_
    · intro x hx
      exact sigmaPair_mem_adj hb hx
    · intro x hx
      exact sigmaPair_mem_adj hb hx
    · intro x hx
      exact sigmaPair_invol_adj (mem_pairsF.mp hx).1
    · intro x hx
      exact sigmaPair_invol_adj (mem_pairsF.mp hx).1
    · intro x _
      rfl
  · rw [Finset.sum_ite_eq' (pairsF l.length) ((a : Nat), a + 1) (fun _ => (1 : ZMod 2))]
    rw [if_pos (mem_pairsF.mpr ⟨by omega, hb⟩)]

theorem tau_comp {a c : Nat} (k : Nat) (hac : a < c) :
    tau c (c + 1) (tau a c (tau c (c + 1) k)) = tau a (c + 1) k := by
  unfold tau
  split_ifs <;> omega

theorem swapPos_decomp (l : List Nat) {a c : Nat} (hac : a < c) (hc1 : c + 1 < l.length) :
    swapPos (swapPos (swapPos l c (c + 1)) a c) c (c + 1) = swapPos l a (c + 1) := by
  have hc : c < l.length := by omega
  have ha : a < l.length := by omega
  have hl1 : (swapPos l c (c + 1)).length = l.length := length_swapPos _ _ _
  have hl2 : (swapPos (swapPos l c (c + 1)) a c).length = l.length := by
    rw [length_swapPos, hl1]
  have hl3 : (swapPos (swapPos (swapPos l c (c + 1)) a c) c (c + 1)).length = l.length := by
    rw [length_swapPos, hl2]
  apply List.ext_getElem
  · rw [hl3, length_swapPos]
  · intro k h1 h2
    have hk : k < l.length := by rw [hl3] at h1; exact h1
    rw [← List.getD_eq_getElem _ 0 h1, ← List.getD_eq_getElem _ 0 h2]
    rw [getD_swapPos _ (show c < (swapPos (swapPos l c (c + 1)) a c).length by
        rw [hl2]; omega)
      (show c + 1 < (swapPos (swapPos l c (c + 1)) a c).length by rw [hl2]; omega)
      (show k < (swapPos (swapPos l c (c + 1)) a c).length by rw [hl2]; exact hk)]
    rw [getD_swapPos _ (show a < (swapPos l c (c + 1)).length by rw [hl1]; omega)
      (show c < (swapPos l c (c + 1)).length by rw [hl1]; omega)
      (show tau c (c + 1) k < (swapPos l c (c + 1)).length by
        rw [hl1]; exact tau_lt hc hc1 hk)]
    rw [getD_swapPos l hc hc1 (tau_lt ha hc (tau_lt hc hc1 hk))]
    rw [getD_swapPos l ha hc1 hk]
    rw [tau_comp k hac]

theorem specCount_swapPos_flip : ∀ (d : Nat) (l : List Nat) (a : Nat), l.Nodup →
    a + d + 1 < l.length →
    ((specCount (swapPos l a (a + d + 1)) : ZMod 2)) = (specCount l : ZMod 2) + 1 := by
  intro d
  induction d with
  | zero =>
    intro l a hnd h
    exact specCount_swap_adj hnd h
  | succ d ih =>
    intro l a hnd h
    have hc1 : (a + d + 1) + 1 < l.length := by omega
    have hadj1 := specCount_swap_adj hnd hc1
    have hnd1 : (swapPos l (a + d + 1) (a + d + 1 + 1)).Nodup :=
      nodup_swapPos hnd (by omega) (by omega)
    have hlen1 : (swapPos l (a + d + 1) (a + d + 1 + 1)).length = l.length :=
      length_swapPos _ _ _
    have hih := ih (swapPos l (a + d + 1) (a + d + 1 + 1)) a hnd1 (by rw [hlen1]; omega)
    have hnd2 : (swapPos (swapPos l (a + d + 1) (a + d + 1 + 1)) a (a + d + 1)).Nodup :=
      nodup_swapPos hnd1 (by rw [hlen1]; omega) (by rw [hlen1]; omega)
    have hlen2 : (swapPos (swapPos l (a + d + 1) (a + d + 1 + 1)) a (a + d + 1)).length
        = l.length := by rw [length_swapPos, hlen1]
    have hadj2 := specCount_swap_adj hnd2
      (show (a + d + 1) + 1 <
        (swapPos (swapPos l (a + d + 1) (a + d + 1 + 1)) a (a + d + 1)).length by
        rw [hlen2]; omega)
    have hdec := swapPos_decomp l (show a < a + d + 1 by omega) hc1
    rw [hdec] at hadj2
    show ((specCount (swapPos l a ((a + d + 1) + 1)) : ZMod 2)) = (specCount l : ZMod 2) + 1
    rw [hadj2, hih, hadj1]
    have h2 : ((specCount l : ZMod 2) + 1 + 1 + 1)
        = (specCount l : ZMod 2) + 1 + (1 + 1) := by ring
    rw [h2, show ((1 : ZMod 2) + 1) = 0 from by decide, add_zero]

theorem perm_parity_swapPos_ne {l : List Nat} (hnd : l.Nodup) {a b : Nat}
    (hab : a < b) (hb : b < l.length) :
    perm_parity (swapPos l a b) ≠ perm_parity l := by
  obtain ⟨d, rfl⟩ : ∃ d, b = a + d + 1 := ⟨b - a - 1, by omega⟩
  have hflip := specCount_swapPos_flip d l a hnd (by omega)
  intro hc
  rw [perm_parity_eq_specCount, perm_parity_eq_specCount] at hc
  have hcast : ((specCount (swapPos l a (a + d + 1)) : ZMod 2)) = (specCount l : ZMod 2) :=
    (ZMod.natCast_eq_natCast_iff' _ _ _).mpr hc
  rw [hflip] at hcast
  have : (1 : ZMod 2) = 0 := by
    have := congrArg (fun x => x - (specCount l : ZMod 2)) hcast
    simpa using this
  exact absurd this (by decide)

/-! ## Combinations, diagonal index lists, and injectivity of the tally image -/

theorem mem_combinations_sublist : ∀ (xs : List Nat) (j : Nat) (c : List Nat),
    c ∈ combinations j xs → c.Sublist xs := by
  intro xs
  induction xs with
  | nil =>
    intro j c hc
    cases j with
    | zero =>
      simp only [combinations, List.mem_singleton] at hc
      rw [hc]
    | succ j => simp [combinations] at hc
  | cons x xs ih =>
    intro j c hc
    cases j with
    | zero =>
      simp only [combinations, List.mem_singleton] at hc
      rw [hc]
      exact List.nil_sublist _
    | succ j =>
      simp only [combinations, List.mem_append, List.mem_map] at hc
      rcases hc with ⟨c2, hc2, rfl⟩ | hc
      · exact (ih j c2 hc2).cons₂ x
      · exact (ih (j + 1) c hc).cons x

theorem mem_combinations_length : ∀ (xs : List Nat) (j : Nat) (c : List Nat),
    c ∈ combinations j xs → c.length = j := by
  intro xs
  induction xs with
  | nil =>
    intro j c hc
    cases j with
    | zero =>
      simp only [combinations, List.mem_singleton] at hc
      rw [hc]
      rfl
    | succ j => simp [combinations] at hc
  | cons x xs ih =>
    intro j c hc
    cases j with
    | zero =>
      simp only [combinations, List.mem_singleton] at hc
      rw [hc]
      rfl
    | succ j =>
      simp only [combinations, List.mem_append, List.mem_map] at hc
      rcases hc with ⟨c2, hc2, rfl⟩ | hc
      · simp [ih j c2 hc2]
      · exact ih (j + 1) c hc

theorem nodup_combinations : ∀ (xs : List Nat), xs.Nodup → ∀ (j : Nat),
    (combinations j xs).Nodup := by
  intro xs
  induction xs with
  | nil =>
    intro _ j
    cases j <;> simp [combinations]
  | cons x xs ih =>
    intro hnd j
    have hx : x ∉ xs := (List.nodup_cons.mp hnd).1
    have hxs : xs.Nodup := (List.nodup_cons.mp hnd).2
    cases j with
    | zero => simp [combinations]
    | succ j =>
      simp only [combinations]
      rw [List.nodup_append]
      refine ⟨List.Nodup.map ?_ (ih hxs j), ih hxs (j + 1), ?_⟩
      · intro c1 c2 h
        simpa using h
      · intro c hc1 hc2
        simp only [List.mem_map] at hc1
        obtain ⟨c2, _, rfl⟩ := hc1
        have hsub := mem_combinations_sublist xs (j + 1) _ hc2
        exact hx (hsub.subset (by simp))

theorem nodup_allCombos (n k : Nat) : (allCombos n k).Nodup := by
  rw [allCombos, List.nodup_flatMap]
  constructor
  · intro j _
    exact nodup_combinations (List.range n) (List.nodup_range n) j
  · refine List.Pairwise.imp ?_ (List.nodup_range' 1 k)
    intro a b hab c hca hcb
    have h1 := mem_combinations_length (List.range n) a c hca
    have h2 := mem_combinations_length (List.range n) b c hcb
    exact hab (h1.symm.trans h2)

theorem mem_allCombos_sublist {n k : Nat} {P : List Nat} (h : P ∈ allCombos n k) :
    P.Sublist (List.range n) := by
  simp only [allCombos, List.mem_flatMap] at h
  obtain ⟨j, _, hP⟩ := h
  exact mem_combinations_sublist _ j _ hP

theorem unDiag_diagOf (P : List Nat) : unDiag (diagOf P) = P := by
  have happ : ∀ l1 l2 : List Nat, unDiag (l1 ++ l2) = unDiag l1 ++ unDiag l2 := by
    intro l1 l2
    simp [unDiag, List.filter_append]
  induction P with
  | nil => rfl
  | cons p P ih =>
    rw [show diagOf (p :: P) = [2 * p, 2 * p + 1] ++ diagOf P from rfl, happ, ih]
    have h1 : unDiag [2 * p, 2 * p + 1] = [p] := by
      have e1 : (2 * p) % 2 = 0 := by omega
      have e2 : (2 * p + 1) % 2 = 1 := by omega
      simp [unDiag, List.filter, e1, e2]
    rw [h1]
    rfl

theorem pairwise_lt_diagOf {P : List Nat} (hP : P.Pairwise (· < ·)) :
    (diagOf P).Pairwise (· < ·) := by
  induction P with
  | nil => simp [diagOf]
  | cons p P ih =>
    rw [List.pairwise_cons] at hP
    have hmem : ∀ x ∈ diagOf P, ∃ q ∈ P, x = 2 * q ∨ x = 2 * q + 1 := by
      intro x hx
      simp only [diagOf, List.mem_flatMap] at hx
      obtain ⟨q, hq, hx⟩ := hx
      simp only [List.mem_cons, List.mem_singleton, List.not_mem_nil, or_false] at hx
      exact ⟨q, hq, hx⟩
    rw [show diagOf (p :: P) = 2 * p :: (2 * p + 1) :: diagOf P from rfl]
    rw [List.pairwise_cons, List.pairwise_cons]
    refine ⟨?_, ?_, ih hP.2⟩
    · intro b hb
      rcases List.mem_cons.mp hb with rfl | hb
      · omega
      · obtain ⟨q, hq, hx⟩ := hmem b hb
        have := hP.1 q hq
        omega
    · intro b hb
      obtain ⟨q, hq, hx⟩ := hmem b hb
      have := hP.1 q hq
      omega

theorem mem_diagOf_lt {P : List Nat} {n : Nat} (hP : ∀ p ∈ P, p < n) :
    ∀ x ∈ diagOf P, x < 2 * n := by
  intro x hx
  simp only [diagOf, List.mem_flatMap] at hx
  obtain ⟨q, hq, hx⟩ := hx
  have := hP q hq
  simp only [List.mem_cons, List.mem_singleton, List.not_mem_nil, or_false] at hx
  rcases hx with rfl | rfl <;> omega

/-! ## The sorted image under the inverse permutation -/

theorem permute_majorana_fst_perm (indices Q : List Nat) :
    List.Perm (permute_majorana indices Q).1 (indices.map (fun i => Q.getD i 0)) :=
  List.perm_insertionSort _ _

theorem permute_majorana_fst_sorted (indices Q : List Nat) :
    (permute_majorana indices Q).1.Sorted (· ≤ ·) :=
  List.sorted_insertionSort _ _

theorem permute_majorana_snd (indices Q : List Nat) :
    (permute_majorana indices Q).2 =
      (-1 : Int) ^ perm_parity (indices.map (fun i => Q.getD i 0)) := rfl

theorem permute_majorana_inj {Q : List Nat} (hQ : IsPerm Q) {k : Nat} {P1 P2 : List Nat}
    (h1 : P1 ∈ allCombos (Q.length / 2) k) (h2 : P2 ∈ allCombos (Q.length / 2) k)
    (heq : (permute_majorana (diagOf P1) (invert_permutation Q)).1
         = (permute_majorana (diagOf P2) (invert_permutation Q)).1) : P1 = P2 := by
  have hQi : (invert_permutation Q).Nodup := (isPerm_invert Q).nodup
  have hlenQi : (invert_permutation Q).length = Q.length := length_invert Q
  have hP1lt : ∀ p ∈ P1, p < Q.length / 2 := fun p hp => by
    have := (mem_allCombos_sublist h1).subset hp
    simpa using this
  have hP2lt : ∀ p ∈ P2, p < Q.length / 2 := fun p hp => by
    have := (mem_allCombos_sublist h2).subset hp
    simpa using this
  have hd1lt : ∀ x ∈ diagOf P1, x < Q.length := by
    intro x hx
    have := mem_diagOf_lt hP1lt x hx
    omega
  have hd2lt : ∀ x ∈ diagOf P2, x < Q.length := by
    intro x hx
    have := mem_diagOf_lt hP2lt x hx
    omega
  have hs1 : (diagOf P1).Pairwise (· < ·) :=
    pairwise_lt_diagOf (List.Pairwise.sublist (mem_allCombos_sublist h1)
      (List.pairwise_lt_range _))
  have hs2 : (diagOf P2).Pairwise (· < ·) :=
    pairwise_lt_diagOf (List.Pairwise.sublist (mem_allCombos_sublist h2)
      (List.pairwise_lt_range _))
  have hnd1 : (diagOf P1).Nodup := hs1.imp (fun h => Nat.ne_of_lt h)
  have hnd2 : (diagOf P2).Nodup := hs2.imp (fun h => Nat.ne_of_lt h)
  have hperm : List.Perm
      ((diagOf P1).map (fun i => (invert_permutation Q).getD i 0))
      ((diagOf P2).map (fun i => (invert_permutation Q).getD i 0)) := by
    have a1 := permute_majorana_fst_perm (diagOf P1) (invert_permutation Q)
    have a2 := permute_majorana_fst_perm (diagOf P2) (invert_permutation Q)
    exact a1.symm.trans (heq ▸ a2)
  have hsub : ∀ (d1 d2 : List Nat), (∀ x ∈ d1, x < Q.length) → (∀ x ∈ d2, x < Q.length) →
      List.Perm (d1.map (fun i => (invert_permutation Q).getD i 0))
        (d2.map (fun i => (invert_permutation Q).getD i 0)) →
      d1 ⊆ d2 := by
    intro d1 d2 hb1 hb2 hp x hx
    have : (invert_permutation Q).getD x 0 ∈
        d2.map (fun i => (invert_permutation Q).getD i 0) :=
      hp.subset (List.mem_map_of_mem _ hx)
    obtain ⟨y, hy, hxy⟩ := List.mem_map.mp this
    have hxeq : y = x := nodup_getD_inj hQi
      (by rw [hlenQi]; exact hb2 y hy) (by rw [hlenQi]; exact hb1 x hx) hxy
    rwa [← hxeq]
  have hdperm : List.Perm (diagOf P1) (diagOf P2) :=
    List.Subperm.antisymm
      (hnd1.subperm (hsub _ _ hd1lt hd2lt hperm))
      (hnd2.subperm (hsub _ _ hd2lt hd1lt hperm.symm))
  have hdeq : diagOf P1 = diagOf P2 :=
    List.eq_of_perm_of_sorted hdperm
      (hs1.imp (fun h => Nat.le_of_lt h)) (hs2.imp (fun h => Nat.le_of_lt h))
  have := congrArg unDiag hdeq
  rwa [unDiag_diagOf, unDiag_diagOf] at this

theorem filterMap_recordOf_eq (keys : List MajKey) (Q : List Nat) (l : List (List Nat)) :
    l.filterMap (recordOf keys Q) =
      (l.filter (fun P =>
        decide ((permute_majorana (diagOf P) (invert_permutation Q)).1 ∈ keys))).map
        (fun P => ((permute_majorana (diagOf P) (invert_permutation Q)).1, diagOf P,
          (permute_majorana (diagOf P) (invert_permutation Q)).2)) := by
  induction l with
  | nil => rfl
  | cons P rest ih =>
    by_cases h : (permute_majorana (diagOf P) (invert_permutation Q)).1 ∈ keys
    · simp [recordOf, h, List.filterMap_cons, List.filter_cons, ih]
    · simp [recordOf, h, List.filterMap_cons, List.filter_cons, ih]

theorem nodup_specRecords_fst {Q : List Nat} (hQ : IsPerm Q) (keys : List MajKey) (k : Nat) :
    ((specRecords keys Q k).map (fun t => t.1)).Nodup := by
  rw [specRecords, filterMap_recordOf_eq, List.map_map]
  refine List.Nodup.map_on ?_ ((nodup_allCombos _ _).filter _)
  intro P1 hP1 P2 hP2 heq
  exact permute_majorana_inj hQ (List.mem_of_mem_filter hP1) (List.mem_of_mem_filter hP2) heq

theorem specRecords_fst_mem (keys : List MajKey) (Q : List Nat) (k : Nat) :
    ∀ t ∈ specRecords keys Q k, t.1 ∈ keys := by
  intro t ht
  rw [specRecords, filterMap_recordOf_eq] at ht
  obtain ⟨P, hP, rfl⟩ := List.mem_map.mp ht
  have := List.of_mem_filter hP
  simpa using this

/-! ## Registries with duplicate-free key sets -/

theorem incr_eq_map_of_nodup {reg : Registry} (hnd : (keysOf reg).Nodup) (key : MajKey) :
    incr reg key = reg.map (fun kv => if kv.1 = key then (kv.1, kv.2 + 1) else kv) := by
  induction reg with
  | nil => rfl
  | cons kv rest ih =>
    simp only [keysOf, List.map_cons, List.nodup_cons] at hnd
    by_cases h : kv.1 = key
    · simp only [incr, if_pos h, List.map_cons, if_pos h]
      congr 1
      have hfix : ∀ kv2 ∈ rest, (if kv2.1 = key then (kv2.1, kv2.2 + 1) else kv2) = kv2 := by
        intro kv2 hkv2
        rw [if_neg]
        intro hc
        apply hnd.1
        rw [h, ← hc]
        exact List.mem_map_of_mem Prod.fst hkv2
      rw [List.map_congr_left hfix, List.map_id']
    · simp only [incr, if_neg h, List.map_cons, if_neg h]
      congr 1
      exact ih hnd.2

theorem foldIncr_eq_map_of_nodup {reg : Registry} (hnd : (keysOf reg).Nodup)
    (ms : List MajKey) :
    foldIncr reg ms = reg.map (fun kv => (kv.1, kv.2 + ms.count kv.1)) := by
  induction ms generalizing reg with
  | nil =>
    show reg = _
    simp
  | cons m ms ih =>
    show foldIncr (incr reg m) ms = _
    have hnd2 : (keysOf (incr reg m)).Nodup := by rw [keysOf_incr]; exact hnd
    rw [ih hnd2, incr_eq_map_of_nodup hnd m, List.map_map]
    apply List.map_congr_left
    intro kv _
    by_cases h : kv.1 = m
    · simp only [Function.comp, if_pos h]
      have : (m :: ms).count kv.1 = ms.count kv.1 + 1 := by
        rw [List.count_cons]
        simp [h]
      rw [this]
      have : kv.2 + 1 + ms.count kv.1 = kv.2 + (ms.count kv.1 + 1) := by omega
      rw [this]
    · simp only [Function.comp, if_neg h]
      have : (m :: ms).count kv.1 = ms.count kv.1 := by
        rw [List.count_cons]
        have hne : ¬(m = kv.1) := fun hc => h hc.symm
        simp [hne]
      rw [this]

theorem countP_zip_map (reg : Registry) (f : MajKey × Nat → MajKey × Nat)
    (p : (MajKey × Nat) × (MajKey × Nat) → Bool) :
    ((reg.zip (reg.map f)).countP p) = reg.countP (fun kv => p (kv, f kv)) := by
  induction reg with
  | nil => rfl
  | cons kv rest ih =>
    simp only [List.map_cons, List.zip_cons_cons, List.countP_cons, ih]

theorem countP_mem_eq_length {keys ms : List MajKey}
    (hk : keys.Nodup) (hm : ms.Nodup) (hsub : ∀ m ∈ ms, m ∈ keys) :
    keys.countP (fun x => decide (x ∈ ms)) = ms.length := by
  rw [List.countP_eq_length_filter]
  have hperm : List.Perm (keys.filter (fun x => decide (x ∈ ms))) ms := by
    apply List.Subperm.antisymm
    · apply List.Nodup.subperm (hk.filter _)
      intro x hx
      have := (List.mem_filter.mp hx).2
      simpa using this
    · apply List.Nodup.subperm hm
      intro m hmm
      rw [List.mem_filter]
      exact ⟨hsub m hmm, by simpa⟩
  exact hperm.length_eq

/-! ## Empty-registry behaviour -/

theorem tally_empty (Q : List Nat) (k : Nat) :
    tally_majorana_matches ([] : Registry) Q k = ([], []) := by
  rw [tally_spec]
  have h : specRecords (keysOf ([] : Registry)) Q k = [] := by
    rw [specRecords, filterMap_recordOf_eq]
    have : ((allCombos (Q.length / 2) k).filter (fun P =>
        decide ((permute_majorana (diagOf P) (invert_permutation Q)).1
          ∈ keysOf ([] : Registry)))) = [] := by
      apply List.filter_eq_nil_iff.mpr
      intro P _
      simp [keysOf]
    rw [this]
    rfl
  rw [h]
  rfl

theorem invert_invert {p : List Nat} (hp : IsPerm p) :
    invert_permutation (invert_permutation p) = p := by
  have hq : IsPerm (invert_permutation p) := isPerm_invert p
  apply List.ext_getElem
  · rw [length_invert, length_invert]
  · intro j h1 h2
    have hlen : (invert_permutation p).length = p.length := length_invert p
    have hj : j < p.length := h2
    have h3 : (invert_permutation p).getD
        ((invert_permutation (invert_permutation p)).getD j 0) 0 = j := by
      have hj2 : j < (invert_permutation p).length := by rw [hlen]; exact hj
      exact getD_compose_invert_right hq hj2
    have h4 : (invert_permutation p).getD (p.getD j 0) 0 = j := getD_invert_getD hp hj
    have harg1 : (invert_permutation (invert_permutation p)).getD j 0 <
        (invert_permutation p).length := by
      have hj3 : j < (invert_permutation (invert_permutation p)).length := h1
      have := (isPerm_invert (invert_permutation p)).getD_lt hj3
      rwa [length_invert] at this
    have harg2 : p.getD j 0 < (invert_permutation p).length := by
      rw [hlen]
      exact hp.getD_lt hj
    have h5 := nodup_getD_inj hq.nodup harg1 harg2 (h3.trans h4.symm)
    rw [← List.getD_eq_getElem _ 0 h1, ← List.getD_eq_getElem _ 0 h2]
    exact h5

theorem count_le_one_of_nodup {l : List MajKey} (h : l.Nodup) (a : MajKey) :
    l.count a ≤ 1 := by
  induction l with
  | nil => simp
  | cons x xs ih =>
    rw [List.count_cons]
    rcases List.nodup_cons.mp h with ⟨hx, hxs⟩
    by_cases hxa : x = a
    · subst hxa
      have h0 : xs.count x = 0 := by
        rw [List.count_eq_zero]
        exact hx
      simp [h0]
    · have h1 := ih hxs
      have hb : (x == a) = false := by simpa using hxa
      have hif : (if (x == a) = true then 1 else 0) = 0 := by rw [hb]; simp
      omega

/-! ## Claim theorems -/

/-- C1: `tally_majorana_matches` iterates body orders `j = 1, …, k_max` and the
`j`-combinations `P` of `{0, …, n-1}` (`n = len(Q)/2`) in enumeration order,
forms the diagonal index list `[2p, 2p+1 : p ∈ P]`, applies `permute_and_sort`
with the inverse of `Q`, and exactly when the sorted image is a registry key
appends the record `(permuted_diag_index, diag_index, sign)` and increments that
key by one: the returned record list is precisely the enumeration-order
`filterMap` against the original key set, and the final registry is the original
with one increment per record. -/
theorem tally_matches_characterization (reg : Registry) (Q : List Nat) (k_max : Nat) :
    tally_majorana_matches reg Q k_max =
      (foldIncr reg ((specRecords (keysOf reg) Q k_max).map (fun t => t.1)),
       specRecords (keysOf reg) Q k_max) :=
  tally_spec reg Q k_max

/-- C2: the cover constructor returns only with every registry count `≥ r`, and
on an empty registry it returns the empty cover at once, independently of the
draw stream. -/
theorem construct_returns_only_when_covered (reg : Registry) (kopt : Option Nat) (r : Nat)
    (draws : List (List Nat)) (regF : Registry) (covF : Cover) :
    (construct_random_measurements_FGU [] kopt r draws = some ([], [])) ∧
    (construct_random_measurements_FGU reg kopt r draws = some (regF, covF) →
      ∀ kv ∈ regF, r ≤ kv.2) := by
  constructor
  · show build_cover_loop r kopt draws [] [] = some ([], [])
    cases draws with
    | nil => simp [build_cover_loop]
    | cons Q rest => simp [build_cover_loop]
  · intro h
    exact build_cover_loop_final r kopt draws reg [] regF covF h

theorem construct_returns_only_when_covered_witness :
    (construct_random_measurements_FGU [] (some 1) 3 [] = some ([], [])) ∧
    (construct_random_measurements_FGU [([0, 1], 5)] (some 1) 3 [] =
        some ([([0, 1], 5)], []) →
      ∀ kv ∈ [(([0, 1] : MajKey), 5)], 3 ≤ kv.2) :=
  construct_returns_only_when_covered [([0, 1], 5)] (some 1) 3 [] [([0, 1], 5)] []

/-- C3: a tally call preserves the registry key set (as does the whole cover
loop), never decreases a count, and returns exactly as many records as registry
entries whose count strictly increased. -/
theorem tally_registry_invariants (reg : Registry) (Q : List Nat) (k r : Nat)
    (kopt : Option Nat) (draws : List (List Nat)) (reg0 regF : Registry)
    (cover covF : Cover) (hQ : IsPerm Q) (hnd : (keysOf reg).Nodup)
    (hloop : build_cover_loop r kopt draws reg0 cover = some (regF, covF)) :
    keysOf (tally_majorana_matches reg Q k).1 = keysOf reg
    ∧ (∀ key v, lookupReg reg key = some v →
        ∃ v2, lookupReg (tally_majorana_matches reg Q k).1 key = some v2 ∧ v ≤ v2)
    ∧ (tally_majorana_matches reg Q k).2.length =
        (reg.zip (tally_majorana_matches reg Q k).1).countP
          (fun pq => decide (pq.1.2 < pq.2.2))
    ∧ keysOf regF = keysOf reg0 := by
  refine ⟨keysOf_tally reg Q k, ?_, ?_,
    build_cover_loop_keys r kopt draws reg0 cover regF covF hloop⟩
  · intro key v hv
    rw [tally_spec]
    dsimp only
    rw [lookupReg_foldIncr, hv]
    exact ⟨v + ((specRecords (keysOf reg) Q k).map (fun t => t.1)).count key, rfl,
      Nat.le_add_right _ _⟩
  · rw [tally_spec]
    dsimp only
    rw [foldIncr_eq_map_of_nodup hnd, countP_zip_map]
    have hnodms : ((specRecords (keysOf reg) Q k).map (fun t => t.1)).Nodup :=
      nodup_specRecords_fst hQ _ k
    have hsubms : ∀ m ∈ (specRecords (keysOf reg) Q k).map (fun t => t.1),
        m ∈ keysOf reg := by
      intro m hm
      obtain ⟨t, ht, rfl⟩ := List.mem_map.mp hm
      exact specRecords_fst_mem _ _ _ t ht
    rw [show (specRecords (keysOf reg) Q k).length
        = ((specRecords (keysOf reg) Q k).map (fun t => t.1)).length from
      (List.length_map _ _).symm]
    rw [← countP_mem_eq_length hnd hnodms hsubms]
    rw [keysOf, List.countP_map]
    apply List.countP_congr
    intro kv _
    simp only [Function.comp, decide_eq_true_eq]
    constructor
    · intro h
      have hp2 := List.count_pos_iff.mpr h
      omega
    · intro h
      exact List.count_pos_iff.mp (by omega)

theorem tally_registry_invariants_witness :
    IsPerm [1, 0] ∧ (keysOf [(([0, 1] : MajKey), 4)]).Nodup ∧
    (keysOf (tally_majorana_matches [([0, 1], 4)] [1, 0] 1).1 = keysOf [([0, 1], 4)]
    ∧ (∀ key v, lookupReg [([0, 1], 4)] key = some v →
        ∃ v2, lookupReg (tally_majorana_matches [([0, 1], 4)] [1, 0] 1).1 key = some v2
          ∧ v ≤ v2)
    ∧ (tally_majorana_matches [([0, 1], 4)] [1, 0] 1).2.length =
        ([(([0, 1] : MajKey), 4)].zip (tally_majorana_matches [([0, 1], 4)] [1, 0] 1).1).countP
          (fun pq => decide (pq.1.2 < pq.2.2))
    ∧ keysOf ([] : Registry) = keysOf ([] : Registry)) :=
  ⟨by decide, by decide,
    tally_registry_invariants [([0, 1], 4)] [1, 0] 1 1 (some 1) [] [] [] [] []
      (by decide) (by decide) (by rfl)⟩

/-- C4: a drawn permutation already present in the cover is skipped without a
tally and without touching the registry, the cover loop preserves
duplicate-freeness of the cover's permutation keys, and the returned cover of
the constructor has duplicate-free permutation keys. -/
theorem cover_dedup (r : Nat) (kopt : Option Nat) (Q : List Nat)
    (rest draws : List (List Nat)) (reg reg0 regF : Registry)
    (cover cover0 covF : Cover)
    (hdup : Q ∈ cover.map Prod.fst)
    (hnd : (cover0.map Prod.fst).Nodup)
    (hrun : build_cover_loop r kopt draws reg0 cover0 = some (regF, covF)) :
    build_cover_loop r kopt (Q :: rest) reg cover = build_cover_loop r kopt rest reg cover
    ∧ (covF.map Prod.fst).Nodup
    ∧ (∀ (reg1 regC : Registry) (covC : Cover),
        construct_random_measurements_FGU reg1 kopt r draws = some (regC, covC) →
        (covC.map Prod.fst).Nodup) := by
  refine ⟨build_cover_loop_skip_dup r kopt Q rest reg cover hdup,
    build_cover_loop_nodup r kopt draws reg0 cover0 regF covF hnd hrun, ?_⟩
  intro reg1 regC covC h
  exact build_cover_loop_nodup r kopt draws reg1 [] regC covC (by simp) h

theorem cover_dedup_witness :
    build_cover_loop 1 (some 1) [[0, 1], [1, 0]] [([0, 1], 0)] [([0, 1], [])]
      = build_cover_loop 1 (some 1) [[1, 0]] [([0, 1], 0)] [([0, 1], [])]
    ∧ (([] : Cover).map Prod.fst).Nodup
    ∧ (∀ (reg1 regC : Registry) (covC : Cover),
        construct_random_measurements_FGU reg1 (some 1) 1 [] = some (regC, covC) →
        (covC.map Prod.fst).Nodup) :=
  cover_dedup 1 (some 1) [0, 1] [[1, 0]] [] [([0, 1], 0)] [] [] [([0, 1], [])] [] []
    (by decide) (by decide) (by rfl)

/-- C5 counterexample: with the identity permutation on a duplicate-free but
unsorted input, `permute_majorana` returns sign `-1`, not `+1`. -/
theorem permute_majorana_identity_sign_cex :
    ¬ ((permute_majorana [1, 0] (List.range 2)).2 = 1) := by decide

/-- C5 (amended): `permute_majorana` returns the multiset image of the indices
under `Q` sorted ascending with sign `(-1) ^ perm_parity` of the pre-sort
image; and on an ascending duplicate-free input the identity permutation
returns the input itself with sign `+1`. -/
theorem permute_majorana_characterization (indices Q sorted_indices : List Nat) (N : Nat)
    (hsorted : sorted_indices.Sorted (· ≤ ·)) (hbound : ∀ x ∈ sorted_indices, x < N) :
    (List.Perm (permute_majorana indices Q).1 (indices.map (fun i => Q.getD i 0))
      ∧ (permute_majorana indices Q).1.Sorted (· ≤ ·)
      ∧ (permute_majorana indices Q).2 =
          (-1 : Int) ^ perm_parity (indices.map (fun i => Q.getD i 0)))
    ∧ permute_majorana sorted_indices (List.range N) = (sorted_indices, 1) := by
  refine ⟨⟨permute_majorana_fst_perm indices Q, permute_majorana_fst_sorted indices Q,
    permute_majorana_snd indices Q⟩, ?_⟩
  have hmap : sorted_indices.map (fun i => (List.range N).getD i 0) = sorted_indices := by
    have := List.map_congr_left (fun x hx => getD_range_lt (hbound x hx))
    rw [this, List.map_id']
  show (List.insertionSort (· ≤ ·) (sorted_indices.map (fun i => (List.range N).getD i 0)),
    (-1 : Int) ^ perm_parity (sorted_indices.map (fun i => (List.range N).getD i 0)))
    = (sorted_indices, 1)
  rw [hmap, hsorted.insertionSort_eq, perm_parity_of_sorted hsorted, pow_zero]

theorem permute_majorana_characterization_witness :
    ([0, 1] : List Nat).Sorted (· ≤ ·) ∧ (∀ x ∈ ([0, 1] : List Nat), x < 2) ∧
    ((List.Perm (permute_majorana [1, 0] [1, 2, 0]).1
        (([1, 0] : List Nat).map (fun i => ([1, 2, 0] : List Nat).getD i 0))
      ∧ (permute_majorana [1, 0] [1, 2, 0]).1.Sorted (· ≤ ·)
      ∧ (permute_majorana [1, 0] [1, 2, 0]).2 =
          (-1 : Int) ^ perm_parity (([1, 0] : List Nat).map
            (fun i => ([1, 2, 0] : List Nat).getD i 0)))
    ∧ permute_majorana [0, 1] (List.range 2) = ([0, 1], 1)) :=
  ⟨by decide, by decide,
    permute_majorana_characterization [1, 0] [1, 2, 0] [0, 1] 2 (by decide) (by decide)⟩

/-- C6: `perm_parity` is the number of index pairs `i < j` with `p[i] > p[j]`
modulo 2 (hence 0 or 1), it vanishes on every identity sequence, and swapping
any two positions of a duplicate-free sequence flips it. -/
theorem perm_parity_characterization (l : List Nat) (n a b : Nat)
    (hnd : l.Nodup) (hab : a < b) (hb : b < l.length) :
    perm_parity l = specCount l % 2
    ∧ perm_parity l < 2
    ∧ perm_parity (List.range n) = 0
    ∧ perm_parity (swapPos l a b) ≠ perm_parity l :=
  ⟨perm_parity_eq_specCount l, perm_parity_lt_two l, perm_parity_range n,
    perm_parity_swapPos_ne hnd hab hb⟩

theorem perm_parity_characterization_witness :
    ([2, 0, 1] : List Nat).Nodup ∧ 0 < 2 ∧ 2 < ([2, 0, 1] : List Nat).length ∧
    (perm_parity [2, 0, 1] = specCount [2, 0, 1] % 2
    ∧ perm_parity [2, 0, 1] < 2
    ∧ perm_parity (List.range 3) = 0
    ∧ perm_parity (swapPos [2, 0, 1] 0 2) ≠ perm_parity [2, 0, 1]) :=
  ⟨by decide, by decide, by decide,
    perm_parity_characterization [2, 0, 1] 3 0 2 (by decide) (by decide) (by decide)⟩

/-- C7: `invert_permutation` produces the two-sided inverse: `q[p[i]] = i`,
double inversion is the identity, and composing either way yields the identity
permutation. -/
theorem invert_permutation_characterization (p : List Nat) (hp : IsPerm p) :
    (∀ i, i < p.length → (invert_permutation p).getD (p.getD i 0) 0 = i)
    ∧ invert_permutation (invert_permutation p) = p
    ∧ compose p (invert_permutation p) = List.range p.length
    ∧ compose (invert_permutation p) p = List.range p.length :=
  ⟨fun _ hi => getD_invert_getD hp hi, invert_invert hp, compose_invert_right hp,
    compose_invert_left hp⟩

theorem invert_permutation_characterization_witness :
    IsPerm [2, 0, 1] ∧
    ((∀ i, i < ([2, 0, 1] : List Nat).length →
        (invert_permutation [2, 0, 1]).getD (([2, 0, 1] : List Nat).getD i 0) 0 = i)
    ∧ invert_permutation (invert_permutation [2, 0, 1]) = [2, 0, 1]
    ∧ compose [2, 0, 1] (invert_permutation [2, 0, 1]) =
        List.range ([2, 0, 1] : List Nat).length
    ∧ compose (invert_permutation [2, 0, 1]) [2, 0, 1] =
        List.range ([2, 0, 1] : List Nat).length) :=
  ⟨by decide, invert_permutation_characterization [2, 0, 1] (by decide)⟩

/-- C8: with the registry, `k_max` and draw stream fixed, if the run with the
larger threshold `r2` terminates then the run with the smaller threshold `r`
terminates too and records at most as many permutations in its cover. -/
theorem cover_monotone_in_threshold (kopt : Option Nat) (r r2 : Nat) (reg : Registry)
    (draws : List (List Nat)) (regF : Registry) (covF : Cover)
    (hr : r ≤ r2)
    (h : construct_random_measurements_FGU reg kopt r2 draws = some (regF, covF)) :
    ∃ regG covG, construct_random_measurements_FGU reg kopt r draws = some (regG, covG)
      ∧ covG.length ≤ covF.length :=
  build_cover_loop_mono kopt hr draws reg [] regF covF h

theorem cover_monotone_in_threshold_witness :
    1 ≤ 2 ∧
    ∃ regG covG,
      construct_random_measurements_FGU [([0, 1], 0)] (some 1) 1 [[0, 1], [1, 0]]
        = some (regG, covG)
      ∧ covG.length ≤ ([(([0, 1] : List Nat),
          [(([0, 1] : MajKey), ([0, 1] : MajKey), (1 : Int))]),
          ([1, 0], [([0, 1], [0, 1], (-1 : Int))])] : Cover).length :=
  ⟨Nat.le_succ 1,
    cover_monotone_in_threshold (some 1) 1 2 [([0, 1], 0)] [[0, 1], [1, 0]]
      [([0, 1], 2)]
      [([0, 1], [([0, 1], [0, 1], 1)]), ([1, 0], [([0, 1], [0, 1], -1)])]
      (Nat.le_succ 1) (by rfl)⟩

/-- C9: with `k_max = None` and an empty registry the automatic degree
determination fails (max of an empty sequence); with `k_max` supplied the call
returns no records and leaves the empty registry unchanged. -/
theorem tally_auto_kmax_empty_registry (Q : List Nat) (k : Nat) :
    tally_opt ([] : Registry) Q none = none
    ∧ tally_opt ([] : Registry) Q (some k) = some ([], []) := by
  constructor
  · rfl
  · show some (tally_majorana_matches [] Q k) = some ([], [])
    rw [tally_empty]

/-- C10: the record list of a tally depends only on the registry's key set, not
on its counts: two registries with the same keys yield identical record lists,
and each key present is incremented in both registries by exactly one, or in
neither. -/
theorem tally_independent_of_counts (reg1 reg2 : Registry) (Q : List Nat) (k : Nat)
    (hQ : IsPerm Q) (hkeys : keysOf reg1 = keysOf reg2) :
    (tally_majorana_matches reg1 Q k).2 = (tally_majorana_matches reg2 Q k).2
    ∧ ∀ key v1 v2, lookupReg reg1 key = some v1 → lookupReg reg2 key = some v2 →
        ((lookupReg (tally_majorana_matches reg1 Q k).1 key = some (v1 + 1)
          ∧ lookupReg (tally_majorana_matches reg2 Q k).1 key = some (v2 + 1))
        ∨ (lookupReg (tally_majorana_matches reg1 Q k).1 key = some v1
          ∧ lookupReg (tally_majorana_matches reg2 Q k).1 key = some v2)) := by
  constructor
  · rw [tally_spec, tally_spec]
    dsimp only
    rw [hkeys]
  · intro key v1 v2 h1 h2
    rw [tally_spec, tally_spec]
    dsimp only
    rw [lookupReg_foldIncr, lookupReg_foldIncr, h1, h2, hkeys]
    have hle : ((specRecords (keysOf reg2) Q k).map (fun t => t.1)).count key ≤ 1 :=
      count_le_one_of_nodup (nodup_specRecords_fst hQ _ k) key
    rcases Nat.lt_or_ge 0 (((specRecords (keysOf reg2) Q k).map (fun t => t.1)).count key)
      with hpos | hzero
    · left
      have h1 : ((specRecords (keysOf reg2) Q k).map (fun t => t.1)).count key = 1 := by
        omega
      rw [h1]
      exact ⟨rfl, rfl⟩
    · right
      have h0 : ((specRecords (keysOf reg2) Q k).map (fun t => t.1)).count key = 0 := by
        omega
      rw [h0]
      exact ⟨rfl, rfl⟩

theorem tally_independent_of_counts_witness :
    IsPerm [0, 1] ∧ keysOf [(([0, 1] : MajKey), 0)] = keysOf [([0, 1], 7)] ∧
    ((tally_majorana_matches [([0, 1], 0)] [0, 1] 1).2
        = (tally_majorana_matches [([0, 1], 7)] [0, 1] 1).2
    ∧ ∀ key v1 v2, lookupReg [([0, 1], 0)] key = some v1 →
        lookupReg [([0, 1], 7)] key = some v2 →
        ((lookupReg (tally_majorana_matches [([0, 1], 0)] [0, 1] 1).1 key = some (v1 + 1)
          ∧ lookupReg (tally_majorana_matches [([0, 1], 7)] [0, 1] 1).1 key = some (v2 + 1))
        ∨ (lookupReg (tally_majorana_matches [([0, 1], 0)] [0, 1] 1).1 key = some v1
          ∧ lookupReg (tally_majorana_matches [([0, 1], 7)] [0, 1] 1).1 key = some v2))) :=
  ⟨by decide, by decide,
    tally_independent_of_counts [([0, 1], 0)] [([0, 1], 7)] [0, 1] 1 (by decide) (by decide)⟩
